import Mathlib

/-!
# Verification of the OptionTree binomial/trinomial option pricer

This file embeds `options.py` (classes `Option`, `BinOption`, `TrinOption` and
their helpers) as Lean definitions and proves properties of the embedding.

Modelling conventions:
* Python floats are modelled as rationals `ℚ`; the transcendental functions
  `math.exp` and `math.sqrt` are abstract parameters `e sq : ℚ → ℚ`, since every
  property proved here is independent of the actual values of `exp`/`sqrt`.
* Dates (`datetime` at midnight) are modelled as integer day numbers `ℤ`; the
  running `day` of the backward sweep becomes a rational because the code
  subtracts the fractional time step `tstep` from it.
* Python exceptions are modelled by `Except PyErr`.  The source resolves the
  payoff with an `if/elif` that has no `else`, so an unrecognized contract type
  leaves the local `exercise` unbound and the first call of it inside the sweep
  raises `UnboundLocalError`; `tstep = days / float(periods)` raises
  `ZeroDivisionError` when `periods == 0`; `pricetree()[0]` raises `IndexError`
  on an empty list.
* Python list reads/writes are modelled with `List.getD`/`List.set` (we prove
  separately that every index used by the sweeps is in bounds, so the `getD`
  default and the out-of-range no-op of `set` are never exercised on the
  claims' domain).
-/

/-- Python exceptions that the embedded code can raise. `invalidContractType`
is the error the specification prescribes; the source never raises it, the
constructor only exists so that statements about the spec's error can be
written down. -/
inductive PyErr where
  | zeroDivision
  | unboundLocal
  | indexError
  | invalidContractType
  deriving DecidableEq, Repr

/-- `discount(amt, days, rfr) = amt * exp(-rfr*(days/365.))` from the source,
with `exp` abstracted as `e`. -/
def discount (e : ℚ → ℚ) (amt days rfr : ℚ) : ℚ :=
  amt * e (-(rfr * (days / 365)))

/-- `exercise_call(stock, strike) = stock - strike`. -/
def exercise_call (stock strike : ℚ) : ℚ := stock - strike

/-- `exercise_put(stock, strike) = strike - stock`. -/
def exercise_put (stock strike : ℚ) : ℚ := strike - stock

/-- `high_mult(vola, tstep) = exp(vola * sqrt(tstep/365.))`. -/
def high_mult (e sq : ℚ → ℚ) (vola tstep : ℚ) : ℚ :=
  e (vola * sq (tstep / 365))

/-- `high_p(rfr, vola, tstep)`: binomial up-probability from the source. -/
def high_p (e sq : ℚ → ℚ) (rfr vola tstep : ℚ) : ℚ :=
  let u := high_mult e sq vola tstep
  let d := 1 / u
  (e (rfr * tstep / 365) - d) / (u - d)

/-- `tri_high_mult(vola, tstep) = exp(vola*sqrt(2*tstep/365.))`. -/
def tri_high_mult (e sq : ℚ → ℚ) (vola tstep : ℚ) : ℚ :=
  e (vola * sq (2 * tstep / 365))

/-- `tri_low_mult(vola, tstep) = exp(-vola*sqrt(2*tstep/365.))`. -/
def tri_low_mult (e sq : ℚ → ℚ) (vola tstep : ℚ) : ℚ :=
  e (-vola * sq (2 * tstep / 365))

/-- `tri_high_p(rfr, vola, tstep)`: trinomial up-probability from the source. -/
def tri_high_p (e sq : ℚ → ℚ) (rfr vola tstep : ℚ) : ℚ :=
  let const := vola * sq (tstep / 365 / 2)
  let num := e (rfr * tstep / 365 / 2) - e (-const)
  let den := e const - e (-const)
  (num / den) ^ 2

/-- `tri_low_p(rfr, vola, tstep)`: trinomial down-probability from the source. -/
def tri_low_p (e sq : ℚ → ℚ) (rfr vola tstep : ℚ) : ℚ :=
  let const := vola * sq (tstep / 365 / 2)
  let num := e const - e (rfr * tstep / 365 / 2)
  let den := e const - e (-const)
  (num / den) ^ 2

/-- The `info` dictionary handed to `Option.__init__`.  `divs` and `periods`
are `Option`-valued: `none` models a missing key (the source catches the
`KeyError` and substitutes a default). Dates are already-parsed day numbers;
date-string parsing is outside the embedded core. -/
structure OptionInfo where
  today : ℤ
  type : String
  price : ℚ
  strike : ℚ
  vola : ℚ
  expi : ℤ
  rfr : ℚ
  divs : Option (List (ℤ × ℚ))
  periods : Option ℤ
  deriving DecidableEq, Repr

/-- The state of a constructed `Option` object (the source's class `Option`;
renamed because `Option` is taken in Lean). -/
structure OptionData where
  today : ℤ
  type : String
  price : ℚ
  strike : ℚ
  vola : ℚ
  expi : ℤ
  rfr : ℚ
  divs : List (ℤ × ℚ)
  periods : ℤ
  tstep : ℚ
  deriving DecidableEq, Repr

/-- Ordering of dividends by date, the key used by `self.divs.sort`. -/
def divLE (a b : ℤ × ℚ) : Prop := a.1 ≤ b.1

instance : DecidableRel divLE := fun a b => inferInstanceAs (Decidable (a.1 ≤ b.1))

instance : IsTotal (ℤ × ℚ) divLE := ⟨fun a b => Int.le_total a.1 b.1⟩

instance : IsTrans (ℤ × ℚ) divLE := ⟨fun _ _ _ h1 h2 => le_trans h1 h2⟩

/-- `Option.__init__`: keep the dividends dated strictly after `today`, sort
them by date, default `periods` to `3`, and derive
`tstep = (expi - today).days / float(periods)` (a `ZeroDivisionError` when
`periods == 0`; no other validation of `periods` is performed). -/
def OptionData.init (info : OptionInfo) : Except PyErr OptionData :=
  let divs0 :=
    match info.divs with
    | some ds => ((ds.filter fun d => decide (info.today < d.1)).insertionSort divLE)
    | none => []
  let periods :=
    match info.periods with
    | some p => p
    | none => 3
  if periods = 0 then Except.error PyErr.zeroDivision
  else
    Except.ok
      { today := info.today, type := info.type, price := info.price,
        strike := info.strike, vola := info.vola, expi := info.expi,
        rfr := info.rfr, divs := divs0, periods := periods,
        tstep := ((info.expi - info.today : ℤ) : ℚ) / (periods : ℚ) }

/-- The payoff the `if self.type == 'call' ... elif self.type == 'put' ...`
dispatch assigns to the local `exercise`; `none` models the local staying
unbound (there is no `else` branch in the source). -/
def exerciseFor (ty : String) : Option (ℚ → ℚ → ℚ) :=
  if ty = "call" then some exercise_call
  else if ty = "put" then some exercise_put
  else none

/-- The mutable state threaded through one pricer sweep: the flat lattice
buffer and the dividend-escrow bookkeeping variables `day`, `cur_div_val`,
`last_div`. -/
structure BState where
  tree : List ℚ
  day : ℚ
  curDiv : ℚ
  lastDiv : ℤ
  deriving DecidableEq, Repr

/-- `self.divs[last_div]` for a cursor known to be `>= 0` (the source guards
the access with `last_div >= 0`). -/
def divAt (divs : List (ℤ × ℚ)) (k : ℤ) : ℤ × ℚ := divs.getD k.toNat (0, 0)

/-- Lines 92-96 / 161-165 of the source (identical in both pricers): decrement
`day` by `tstep`; if the cursor is valid and its dividend is dated strictly
after the new `day`, absorb that dividend's cash amount and move the cursor
back one position; finally discount `cur_div_val` by one step. -/
def escrowUpd (e : ℚ → ℚ) (tstep rfr : ℚ) (divs : List (ℤ × ℚ))
    (day curDiv : ℚ) (lastDiv : ℤ) : ℚ × ℚ × ℤ :=
  let day2 := day - tstep
  let next :=
    if 0 ≤ lastDiv ∧ ((divAt divs lastDiv).1 : ℚ) > day2 then
      (curDiv + (divAt divs lastDiv).2, lastDiv - 1)
    else (curDiv, lastDiv)
  (day2, discount e next.1 tstep rfr, next.2)

/-- `escrowUpd` as a map on `(day, cur_div_val, last_div)` triples. -/
def escrowStepFn (e : ℚ → ℚ) (tstep rfr : ℚ) (divs : List (ℤ × ℚ)) :
    ℚ × ℚ × ℤ → ℚ × ℚ × ℤ :=
  fun st => escrowUpd e tstep rfr divs st.1 st.2.1 st.2.2

/-- The escrow state after `m` completed sweep steps, starting from
`day = expi`, `cur_div_val = 0`, `last_div = len(divs) - 1`. -/
def escrowIter (e : ℚ → ℚ) (tstep rfr : ℚ) (divs : List (ℤ × ℚ))
    (expi : ℚ) (m : ℕ) : ℚ × ℚ × ℤ :=
  (escrowStepFn e tstep rfr divs)^[m] (expi, 0, (divs.length : ℤ) - 1)

/-- The loop of lines 67-69 / 136-138: `start_div_val` accumulated over the
retained dividends, `start_div_val += discount(amt, (date-today).days, rfr)`. -/
def startDivVal (e : ℚ → ℚ) (c : OptionData) : ℚ :=
  c.divs.foldl (fun acc d => acc + discount e d.2 ((d.1 - c.today : ℤ) : ℚ) c.rfr) 0

/-- The value written to `pricetree[step*(step+1)/2 + i]` by the binomial inner
loop (lines 79-90), reading the two children of node `i` from the step `s+1`
block of `tree`. -/
def binNodeVal (e : ℚ → ℚ) (exf : ℚ → ℚ → ℚ)
    (adj up pUp pDown tstep rfr strike curDiv : ℚ) (nper s i : ℕ)
    (tree : List ℚ) : ℚ :=
  let price := adj * up ^ (2 * (i : ℤ) - (s : ℤ)) + curDiv
  let exerVal := exf price strike
  let binVal :=
    if s < nper then
      discount e
        (pDown * tree.getD ((s + 1) * (s + 2) / 2 + i) 0 +
          pUp * tree.getD ((s + 1) * (s + 2) / 2 + i + 1) 0) tstep rfr
    else 0
  max (max binVal exerVal) 0

/-- One iteration of the binomial outer loop (lines 75-96) at step `s`:
write all `s+1` node values, then update the dividend escrow. -/
def binStep (e : ℚ → ℚ) (exf : ℚ → ℚ → ℚ)
    (adj up pUp pDown tstep rfr strike : ℚ) (divs : List (ℤ × ℚ))
    (nper s : ℕ) (st : BState) : BState :=
  let tree :=
    (List.range (s + 1)).foldl
      (fun t i =>
        t.set (s * (s + 1) / 2 + i)
          (binNodeVal e exf adj up pUp pDown tstep rfr strike st.curDiv nper s i t))
      st.tree
  let esc := escrowUpd e tstep rfr divs st.day st.curDiv st.lastDiv
  ⟨tree, esc.1, esc.2.1, esc.2.2⟩

/-- `for step in xrange(self.periods, -1, -1)`: `binLoop ... k st` still has to
process steps `k-1, k-2, ..., 0`; the whole sweep is `binLoop ... (nper+1)`. -/
def binLoop (e : ℚ → ℚ) (exf : ℚ → ℚ → ℚ)
    (adj up pUp pDown tstep rfr strike : ℚ) (divs : List (ℤ × ℚ))
    (nper : ℕ) : ℕ → BState → BState
  | 0, st => st
  | k + 1, st => binLoop e exf adj up pUp pDown tstep rfr strike divs nper k
      (binStep e exf adj up pUp pDown tstep rfr strike divs nper k st)

/-- The full binomial sweep on a fresh buffer of `(n+1)(n+2)/2` zeros
(line 65), starting the escrow at `(expi, 0, len(divs)-1)` (lines 72-74). -/
def binSweep (e : ℚ → ℚ) (exf : ℚ → ℚ → ℚ)
    (adj up pUp pDown tstep rfr strike expi : ℚ) (divs : List (ℤ × ℚ))
    (n : ℕ) : List ℚ :=
  (binLoop e exf adj up pUp pDown tstep rfr strike divs n (n + 1)
    ⟨List.replicate ((n + 1) * (n + 2) / 2) 0, expi, 0, (divs.length : ℤ) - 1⟩).tree

/-- The list returned by `BinOption.pricetree` once the payoff `exf` has been
resolved: the sweep run with `adj_price = price - start_div_val`,
`up = high_mult(...)`, `p_up = high_p(...)`, `p_down = 1 - p_up`. -/
def binResult (e sq : ℚ → ℚ) (exf : ℚ → ℚ → ℚ) (c : OptionData) : List ℚ :=
  binSweep e exf (c.price - startDivVal e c)
    (high_mult e sq c.vola c.tstep)
    (high_p e sq c.rfr c.vola c.tstep)
    (1 - high_p e sq c.rfr c.vola c.tstep)
    c.tstep c.rfr c.strike ((c.expi : ℤ) : ℚ) c.divs c.periods.toNat

/-- `BinOption.pricetree`.  With a negative `periods` the Python loop
`xrange(periods, -1, -1)` is empty, so the (floor-divided-length) zero buffer
is returned untouched and the unbound `exercise` local is never consulted;
with `periods >= 0` and an unrecognized type the first inner-loop call
`exercise(price, self.strike)` raises `UnboundLocalError`. -/
def BinOption.pricetree (e sq : ℚ → ℚ) (c : OptionData) : Except PyErr (List ℚ) :=
  if c.periods < 0 then
    Except.ok (List.replicate (((c.periods + 1) * (c.periods + 2)).fdiv 2).toNat 0)
  else
    match exerciseFor c.type with
    | none => Except.error PyErr.unboundLocal
    | some exf => Except.ok (binResult e sq exf c)

/-- `BinOption.value(self) = self.pricetree()[0]`. -/
def BinOption.value (e sq : ℚ → ℚ) (c : OptionData) : Except PyErr ℚ :=
  match BinOption.pricetree e sq c with
  | Except.error err => Except.error err
  | Except.ok [] => Except.error PyErr.indexError
  | Except.ok (x :: _) => Except.ok x

/-- The value written to `pricetree[step**2 + i]` by the trinomial inner loop
(lines 148-159), reading the three children from the step `s+1` block. -/
def trinNodeVal (e : ℚ → ℚ) (exf : ℚ → ℚ → ℚ)
    (adj up pUp pMid pDown tstep rfr strike curDiv : ℚ) (nper s i : ℕ)
    (tree : List ℚ) : ℚ :=
  let price := adj * up ^ ((i : ℤ) - (s : ℤ)) + curDiv
  let exerVal := exf price strike
  let trinVal :=
    if s < nper then
      discount e
        (pDown * tree.getD ((s + 1) ^ 2 + i) 0 +
          pMid * tree.getD ((s + 1) ^ 2 + i + 1) 0 +
          pUp * tree.getD ((s + 1) ^ 2 + i + 2) 0) tstep rfr
    else 0
  max (max trinVal exerVal) 0

/-- One iteration of the trinomial outer loop (lines 144-165) at step `s`:
write all `2s+1` node values, then update the dividend escrow. -/
def trinStep (e : ℚ → ℚ) (exf : ℚ → ℚ → ℚ)
    (adj up pUp pMid pDown tstep rfr strike : ℚ) (divs : List (ℤ × ℚ))
    (nper s : ℕ) (st : BState) : BState :=
  let tree :=
    (List.range (2 * s + 1)).foldl
      (fun t i =>
        t.set (s ^ 2 + i)
          (trinNodeVal e exf adj up pUp pMid pDown tstep rfr strike st.curDiv nper s i t))
      st.tree
  let esc := escrowUpd e tstep rfr divs st.day st.curDiv st.lastDiv
  ⟨tree, esc.1, esc.2.1, esc.2.2⟩

/-- Trinomial outer loop, counting down as in `binLoop`. -/
def trinLoop (e : ℚ → ℚ) (exf : ℚ → ℚ → ℚ)
    (adj up pUp pMid pDown tstep rfr strike : ℚ) (divs : List (ℤ × ℚ))
    (nper : ℕ) : ℕ → BState → BState
  | 0, st => st
  | k + 1, st => trinLoop e exf adj up pUp pMid pDown tstep rfr strike divs nper k
      (trinStep e exf adj up pUp pMid pDown tstep rfr strike divs nper k st)

/-- The full trinomial sweep on a fresh buffer of `(n+1)^2` zeros (line 134). -/
def trinSweep (e : ℚ → ℚ) (exf : ℚ → ℚ → ℚ)
    (adj up pUp pMid pDown tstep rfr strike expi : ℚ) (divs : List (ℤ × ℚ))
    (n : ℕ) : List ℚ :=
  (trinLoop e exf adj up pUp pMid pDown tstep rfr strike divs n (n + 1)
    ⟨List.replicate ((n + 1) ^ 2) 0, expi, 0, (divs.length : ℤ) - 1⟩).tree

/-- The list returned by `TrinOption.pricetree` once the payoff is resolved:
`up = tri_high_mult(...)`, `p_up = tri_high_p(...)`, `p_down = tri_low_p(...)`,
`p_mid = 1 - p_up - p_down`. -/
def trinResult (e sq : ℚ → ℚ) (exf : ℚ → ℚ → ℚ) (c : OptionData) : List ℚ :=
  trinSweep e exf (c.price - startDivVal e c)
    (tri_high_mult e sq c.vola c.tstep)
    (tri_high_p e sq c.rfr c.vola c.tstep)
    (1 - tri_high_p e sq c.rfr c.vola c.tstep - tri_low_p e sq c.rfr c.vola c.tstep)
    (tri_low_p e sq c.rfr c.vola c.tstep)
    c.tstep c.rfr c.strike ((c.expi : ℤ) : ℚ) c.divs c.periods.toNat

/-- `TrinOption.pricetree`; error behaviour exactly as in `BinOption.pricetree`
(the two methods share their structure line for line). -/
def TrinOption.pricetree (e sq : ℚ → ℚ) (c : OptionData) : Except PyErr (List ℚ) :=
  if c.periods < 0 then
    Except.ok (List.replicate ((c.periods + 1) ^ 2).toNat 0)
  else
    match exerciseFor c.type with
    | none => Except.error PyErr.unboundLocal
    | some exf => Except.ok (trinResult e sq exf c)

/-- `TrinOption.value(self) = self.pricetree()[0]`. -/
def TrinOption.value (e sq : ℚ → ℚ) (c : OptionData) : Except PyErr ℚ :=
  match TrinOption.pricetree e sq c with
  | Except.error err => Except.error err
  | Except.ok [] => Except.error PyErr.indexError
  | Except.ok (x :: _) => Except.ok x

/-! ## Generic lemmas about the write pattern of the inner loops -/

/-- Writing inside the list and reading the same position gives the value. -/
theorem getD_set_same (a : ℚ) :
    ∀ (l : List ℚ) (i : ℕ), i < l.length → (l.set i a).getD i 0 = a := by
  intro l
  induction l with
  | nil => intro i h; simp at h
  | cons x xs ih =>
    intro i h
    cases i with
    | zero => simp
    | succ n => simpa using ih n (by simpa using h)

/-- Writing one position leaves the others unchanged. -/
theorem getD_set_diff (a : ℚ) :
    ∀ (l : List ℚ) (i j : ℕ), i ≠ j → (l.set i a).getD j 0 = l.getD j 0 := by
  intro l
  induction l with
  | nil => intro i j _; simp
  | cons x xs ih =>
    intro i j hij
    cases i with
    | zero =>
      cases j with
      | zero => omega
      | succ m => simp
    | succ n =>
      cases j with
      | zero => simp
      | succ m => simpa using ih n m (by omega)

/-- The inner loops only `set` entries, so they preserve the buffer length. -/
theorem writeFold_length (w : ℕ → ℕ) (v : List ℚ → ℕ → ℚ) :
    ∀ (m : ℕ) (tree : List ℚ),
      ((List.range m).foldl (fun t i => t.set (w i) (v t i)) tree).length =
        tree.length := by
  intro m
  induction m with
  | zero => simp
  | succ m ih =>
    intro tree
    rw [List.range_succ, List.foldl_append]
    simp only [List.foldl_cons, List.foldl_nil, List.length_set]
    exact ih tree

/-- A position no iteration writes to keeps its original value. -/
theorem writeFold_frozen (w : ℕ → ℕ) (v : List ℚ → ℕ → ℚ) (j : ℕ) :
    ∀ (m : ℕ) (tree : List ℚ), (∀ i, i < m → w i ≠ j) →
      ((List.range m).foldl (fun t i => t.set (w i) (v t i)) tree).getD j 0 =
        tree.getD j 0 := by
  intro m
  induction m with
  | zero => intro tree _; simp
  | succ m ih =>
    intro tree h
    rw [List.range_succ, List.foldl_append]
    simp only [List.foldl_cons, List.foldl_nil]
    rw [getD_set_diff _ _ _ _ (h m (by omega))]
    exact ih tree (fun i hi => h i (by omega))

/-- Characterization of the value at a written position: if every write lands
strictly below `B` and the written value reads the accumulator only at
positions `≥ B`, then iteration `i` stores the value computed from the
original buffer. -/
theorem writeFold_write (w : ℕ → ℕ) (v : List ℚ → ℕ → ℚ) (B : ℕ) :
    ∀ (m : ℕ) (tree : List ℚ) (i : ℕ), i < m →
      (∀ i', i' < m → w i' < B) →
      (∀ i' j', i' < m → j' < m → w i' = w j' → i' = j') →
      w i < tree.length →
      (∀ t : List ℚ, (∀ j, B ≤ j → t.getD j 0 = tree.getD j 0) → v t i = v tree i) →
      ((List.range m).foldl (fun t i => t.set (w i) (v t i)) tree).getD (w i) 0 =
        v tree i := by
  intro m
  induction m with
  | zero => intro tree i h; omega
  | succ m ih =>
    intro tree i him hwB hinj hlen hv
    rw [List.range_succ, List.foldl_append]
    simp only [List.foldl_cons, List.foldl_nil]
    by_cases hcase : i = m
    · subst hcase
      rw [getD_set_same _ _ _ (by rw [writeFold_length]; exact hlen)]
      refine hv _ (fun j hBj => writeFold_frozen w v j i tree (fun i' hi' => ?_))
      have := hwB i' (by omega)
      omega
    · have hne : w m ≠ w i := fun hEq => hcase (hinj m i (by omega) (by omega) hEq).symm
      rw [getD_set_diff _ _ _ _ hne]
      exact ih tree i (by omega) (fun i' h => hwB i' (by omega))
        (fun a b ha hb => hinj a b (by omega) (by omega)) hlen hv

/-- If every write is nonnegative, nonnegativity of all entries is preserved. -/
theorem writeFold_nonneg (w : ℕ → ℕ) (v : List ℚ → ℕ → ℚ)
    (hval : ∀ t i, 0 ≤ v t i) :
    ∀ (m : ℕ) (tree : List ℚ), (∀ x ∈ tree, 0 ≤ x) →
      ∀ x ∈ (List.range m).foldl (fun t i => t.set (w i) (v t i)) tree, 0 ≤ x := by
  intro m
  induction m with
  | zero => intro tree h; simpa using h
  | succ m ih =>
    intro tree h x hx
    rw [List.range_succ, List.foldl_append] at hx
    simp only [List.foldl_cons, List.foldl_nil] at hx
    rcases List.mem_or_eq_of_mem_set hx with h1 | h2
    · exact ih tree h x h1
    · rw [h2]; exact hval _ _

/-! ## Index arithmetic for the two flat lattice layouts -/

/-- Triangular offsets: `(s+1)(s+2)/2 = s(s+1)/2 + (s+1)`. -/
theorem triNum_succ (s : ℕ) : (s + 1) * (s + 2) / 2 = s * (s + 1) / 2 + (s + 1) := by
  have h : (s + 1) * (s + 2) = s * (s + 1) + 2 * (s + 1) := by ring
  rw [h, Nat.add_mul_div_left _ _ (by norm_num : 0 < 2)]

/-- Triangular offsets are monotone in the step index. -/
theorem triNum_mono {s t : ℕ} (h : s ≤ t) : s * (s + 1) / 2 ≤ t * (t + 1) / 2 :=
  Nat.div_le_div_right (Nat.mul_le_mul h (by omega))

/-- Square offsets: `(s+1)^2 = s^2 + 2s + 1`. -/
theorem sqNum_succ (s : ℕ) : (s + 1) ^ 2 = s ^ 2 + 2 * s + 1 := by ring

/-- Square offsets are monotone in the step index. -/
theorem sqNum_mono {s t : ℕ} (h : s ≤ t) : s ^ 2 ≤ t ^ 2 :=
  Nat.pow_le_pow_left h 2

/-! ## The specification's backward-induction recurrence (binomial) -/

/-- Modelled from the spec (claim C1, spec section 4.5): the value of binomial
node `i` at step `s = n - k`, defined by backward recursion on `k`.  The
underlying price is `adj * up^(2i-s) + currentDividendValue`, the continuation
value is `0` at the terminal step and otherwise the discounted
`pDown/pUp`-weighted average of the two children at step `s+1`, and the node
value is `max(continuation, exercise, 0)`.  `dv s` is the escrow value
`currentDividendValue` in effect at step `s`. -/
def specBinAux (e : ℚ → ℚ) (exf : ℚ → ℚ → ℚ)
    (adj up pUp pDown tstep rfr strike : ℚ) (dv : ℕ → ℚ) (n : ℕ) :
    ℕ → ℕ → ℚ
  | 0, i =>
      max (max 0 (exf (adj * up ^ (2 * (i : ℤ) - (n : ℤ)) + dv n) strike)) 0
  | k + 1, i =>
      max (max
        (discount e
          (pDown * specBinAux e exf adj up pUp pDown tstep rfr strike dv n k i +
            pUp * specBinAux e exf adj up pUp pDown tstep rfr strike dv n k (i + 1))
          tstep rfr)
        (exf (adj * up ^ (2 * (i : ℤ) - ((n - (k + 1) : ℕ) : ℤ)) + dv (n - (k + 1)))
          strike)) 0

/-- The invariant of the binomial backward sweep: with `k` outer-loop
iterations still to go, the buffer length is unchanged, the escrow state is
the `(n+1-k)`-th iterate, and every already-processed step `t ≥ k` stores the
specification's node values. -/
def BinInv (e : ℚ → ℚ) (exf : ℚ → ℚ → ℚ)
    (adj up pUp pDown tstep rfr strike expi : ℚ) (divs : List (ℤ × ℚ))
    (n k : ℕ) (st : BState) : Prop :=
  st.tree.length = (n + 1) * (n + 2) / 2 ∧
  (st.day, st.curDiv, st.lastDiv) = escrowIter e tstep rfr divs expi (n + 1 - k) ∧
  ∀ t, k ≤ t → t ≤ n → ∀ i, i ≤ t →
    st.tree.getD (t * (t + 1) / 2 + i) 0 =
      specBinAux e exf adj up pUp pDown tstep rfr strike
        (fun u => (escrowIter e tstep rfr divs expi (n - u)).2.1) n (n - t) i

/-- Processing step `k` preserves the sweep invariant. -/
theorem binStep_inv (e : ℚ → ℚ) (exf : ℚ → ℚ → ℚ)
    (adj up pUp pDown tstep rfr strike expi : ℚ) (divs : List (ℤ × ℚ))
    (n k : ℕ) (hk : k ≤ n) (st : BState)
    (h : BinInv e exf adj up pUp pDown tstep rfr strike expi divs n (k + 1) st) :
    BinInv e exf adj up pUp pDown tstep rfr strike expi divs n k
      (binStep e exf adj up pUp pDown tstep rfr strike divs n k st) := by
  obtain ⟨hlen, hesc, hnodes⟩ := h
  have hidx : n + 1 - (k + 1) = n - k := by omega
  rw [hidx] at hesc
  have htree : (binStep e exf adj up pUp pDown tstep rfr strike divs n k st).tree =
      (List.range (k + 1)).foldl
        (fun t i =>
          t.set (k * (k + 1) / 2 + i)
            (binNodeVal e exf adj up pUp pDown tstep rfr strike st.curDiv n k i t))
        st.tree := rfl
  have hstep : ((binStep e exf adj up pUp pDown tstep rfr strike divs n k st).day,
      (binStep e exf adj up pUp pDown tstep rfr strike divs n k st).curDiv,
      (binStep e exf adj up pUp pDown tstep rfr strike divs n k st).lastDiv) =
      escrowStepFn e tstep rfr divs (st.day, st.curDiv, st.lastDiv) := rfl
  have hcur : st.curDiv = (escrowIter e tstep rfr divs expi (n - k)).2.1 := by
    have := congrArg (fun p => p.2.1) hesc
    simpa using this
  refine ⟨?_, ?_, ?_⟩
  · rw [htree, writeFold_length]
    exact hlen
  · rw [hstep, hesc]
    have h1 : n + 1 - k = (n - k) + 1 := by omega
    rw [h1, escrowIter, escrowIter, Function.iterate_succ_apply']
  · intro t ht1 ht2 i hi
    rcases Nat.lt_or_ge k t with hkt | hkt
    · -- step `t > k` was processed earlier; its block is untouched
      rw [htree]
      have hfrozen :
          ((List.range (k + 1)).foldl
            (fun t2 i2 =>
              t2.set (k * (k + 1) / 2 + i2)
                (binNodeVal e exf adj up pUp pDown tstep rfr strike st.curDiv n k i2 t2))
            st.tree).getD (t * (t + 1) / 2 + i) 0 = st.tree.getD (t * (t + 1) / 2 + i) 0 := by
        refine writeFold_frozen _ _ _ (k + 1) st.tree (fun i2 hi2 => ?_)
        have hb1 : k * (k + 1) / 2 + i2 < (k + 1) * (k + 2) / 2 := by
          rw [triNum_succ]; omega
        have hb2 : (k + 1) * (k + 2) / 2 ≤ t * (t + 1) / 2 := triNum_mono hkt
        omega
      rw [hfrozen]
      exact hnodes t (by omega) ht2 i hi
    · -- `t = k`: the block just written
      have htk : t = k := by omega
      subst htk
      rw [htree]
      have hwrite :
          ((List.range (t + 1)).foldl
            (fun t2 i2 =>
              t2.set (t * (t + 1) / 2 + i2)
                (binNodeVal e exf adj up pUp pDown tstep rfr strike st.curDiv n t i2 t2))
            st.tree).getD (t * (t + 1) / 2 + i) 0 =
            binNodeVal e exf adj up pUp pDown tstep rfr strike st.curDiv n t i st.tree := by
        refine writeFold_write _ _ ((t + 1) * (t + 2) / 2) (t + 1) st.tree i (by omega)
          (fun i2 hi2 => by rw [triNum_succ]; omega)
          (fun a b _ _ hab => by omega)
          ?_ ?_
        · rw [hlen]
          have hb1 : t * (t + 1) / 2 + i < (t + 1) * (t + 2) / 2 := by
            rw [triNum_succ]; omega
          have hb2 : (t + 1) * (t + 2) / 2 ≤ (n + 1) * (n + 2) / 2 := triNum_mono (by omega)
          omega
        · intro t2 ht2eq
          by_cases hcont : t < n
          · simp only [binNodeVal, if_pos hcont]
            rw [ht2eq ((t + 1) * (t + 2) / 2 + i) (by omega),
              ht2eq ((t + 1) * (t + 2) / 2 + i + 1) (by omega)]
          · simp only [binNodeVal, if_neg hcont]
      rw [hwrite, hcur]
      by_cases hcont : t < n
      · -- interior step: both children are already the spec values
        have hread1 := hnodes (t + 1) (le_refl _) (by omega) i (by omega)
        have hread2 := hnodes (t + 1) (le_refl _) (by omega) (i + 1) (by omega)
        have hnt : n - t = (n - (t + 1)) + 1 := by omega
        simp only [binNodeVal, if_pos hcont]
        rw [add_assoc ((t + 1) * (t + 2) / 2) i 1, hread1, hread2, hnt]
        simp only [specBinAux]
        have hback : n - (n - (t + 1) + 1) = t := by omega
        rw [hback, ← hnt]
      · -- terminal step `t = n`: no continuation value
        have htn : t = n := by omega
        subst htn
        have hnt : t - t = 0 := by omega
        simp only [binNodeVal, if_neg hcont, hnt, specBinAux]

/-- Running the remaining `k` iterations carries the invariant to completion. -/
theorem binLoop_inv (e : ℚ → ℚ) (exf : ℚ → ℚ → ℚ)
    (adj up pUp pDown tstep rfr strike expi : ℚ) (divs : List (ℤ × ℚ)) (n : ℕ) :
    ∀ k st, k ≤ n + 1 →
      BinInv e exf adj up pUp pDown tstep rfr strike expi divs n k st →
      BinInv e exf adj up pUp pDown tstep rfr strike expi divs n 0
        (binLoop e exf adj up pUp pDown tstep rfr strike divs n k st) := by
  intro k
  induction k with
  | zero => intro st _ h; exact h
  | succ k ih =>
    intro st hk h
    exact ih _ (by omega) (binStep_inv e exf adj up pUp pDown tstep rfr strike expi divs
      n k (by omega) st h)

/-- The binomial sweep stores the specification's node value at every
triangular offset `s(s+1)/2 + i`. -/
theorem binSweep_spec (e : ℚ → ℚ) (exf : ℚ → ℚ → ℚ)
    (adj up pUp pDown tstep rfr strike expi : ℚ) (divs : List (ℤ × ℚ))
    (n s i : ℕ) (hs : s ≤ n) (hi : i ≤ s) :
    (binSweep e exf adj up pUp pDown tstep rfr strike expi divs n).getD
        (s * (s + 1) / 2 + i) 0 =
      specBinAux e exf adj up pUp pDown tstep rfr strike
        (fun u => (escrowIter e tstep rfr divs expi (n - u)).2.1) n (n - s) i := by
  have hinit : BinInv e exf adj up pUp pDown tstep rfr strike expi divs n (n + 1)
      ⟨List.replicate ((n + 1) * (n + 2) / 2) 0, expi, 0, (divs.length : ℤ) - 1⟩ := by
    refine ⟨by simp, ?_, ?_⟩
    · have h0 : n + 1 - (n + 1) = 0 := by omega
      rw [h0, escrowIter, Function.iterate_zero_apply]
    · intro t ht1 ht2
      omega
  have hfinal := binLoop_inv e exf adj up pUp pDown tstep rfr strike expi divs n
    (n + 1) _ (le_refl _) hinit
  exact hfinal.2.2 s (by omega) hs i hi

/-- The specification's node value (claim C1) with all lattice parameters and
the escrow sequence taken from the contract, at step `s`, node `i`. -/
def specBinValue (e sq : ℚ → ℚ) (exf : ℚ → ℚ → ℚ) (c : OptionData) (s i : ℕ) : ℚ :=
  specBinAux e exf (c.price - startDivVal e c)
    (high_mult e sq c.vola c.tstep) (high_p e sq c.rfr c.vola c.tstep)
    (1 - high_p e sq c.rfr c.vola c.tstep) c.tstep c.rfr c.strike
    (fun u => (escrowIter e c.tstep c.rfr c.divs ((c.expi : ℤ) : ℚ)
      (c.periods.toNat - u)).2.1)
    c.periods.toNat (c.periods.toNat - s) i

/-- C1: for every contract whose payoff resolves (contractType in {call, put})
and whose periodCount is positive, the binomial pricer succeeds and, for every
step `s ≤ periodCount` and node `i ≤ s`, the lattice value stored at flat
offset `s(s+1)/2 + i` equals `max(continuationVal, exerciseVal, 0)` computed
by the specification's backward recurrence (price
`adjustedStartPrice * up^(2i-s) + currentDividendValue`, zero continuation at
the terminal step, discounted `pDown/pUp` child average elsewhere). -/
theorem binomial_sweep_node_values (e sq : ℚ → ℚ) (exf : ℚ → ℚ → ℚ)
    (c : OptionData) (hex : exerciseFor c.type = some exf) (hp : 0 < c.periods)
    (s i : ℕ) (hs : s ≤ c.periods.toNat) (hi : i ≤ s) :
    BinOption.pricetree e sq c = Except.ok (binResult e sq exf c) ∧
    (binResult e sq exf c).getD (s * (s + 1) / 2 + i) 0 =
      specBinValue e sq exf c s i := by
  constructor
  · rw [BinOption.pricetree, if_neg (by omega : ¬ c.periods < 0), hex]
  · simp only [binResult, specBinValue, binSweep]
    exact binSweep_spec e exf (c.price - startDivVal e c)
      (high_mult e sq c.vola c.tstep) (high_p e sq c.rfr c.vola c.tstep)
      (1 - high_p e sq c.rfr c.vola c.tstep) c.tstep c.rfr c.strike
      ((c.expi : ℤ) : ℚ) c.divs c.periods.toNat s i hs hi

/-- A small concrete contract (call, two periods, one retained dividend)
used to instantiate hypothesis-bearing theorems. -/
def cCall : OptionData :=
  { today := 0, type := "call", price := 50, strike := 50, vola := 2 / 5,
    expi := 2, rfr := 9 / 100, divs := [(1, 2)], periods := 2, tstep := 1 }

/-- Witness for C1 at the concrete contract `cCall`, step 1, node 1. -/
theorem binomial_sweep_node_values_witness :
    BinOption.pricetree id id cCall = Except.ok (binResult id id exercise_call cCall) ∧
    (binResult id id exercise_call cCall).getD (1 * (1 + 1) / 2 + 1) 0 =
      specBinValue id id exercise_call cCall 1 1 :=
  binomial_sweep_node_values id id exercise_call cCall rfl (by decide) 1 1
    (by decide) (by decide)

/-! ## The specification's backward-induction recurrence (trinomial) -/

/-- Modelled from the spec (claim C2, spec section 4.6): the value of
trinomial node `i` at step `s = n - k`: price `adj * up^(i-s) + dv s`,
continuation `0` at the terminal step, otherwise the discounted
`pDown/pMid/pUp`-weighted average of the three children at step `s+1`, node
value `max(continuation, exercise, 0)`. -/
def specTrinAux (e : ℚ → ℚ) (exf : ℚ → ℚ → ℚ)
    (adj up pUp pMid pDown tstep rfr strike : ℚ) (dv : ℕ → ℚ) (n : ℕ) :
    ℕ → ℕ → ℚ
  | 0, i =>
      max (max 0 (exf (adj * up ^ ((i : ℤ) - (n : ℤ)) + dv n) strike)) 0
  | k + 1, i =>
      max (max
        (discount e
          (pDown * specTrinAux e exf adj up pUp pMid pDown tstep rfr strike dv n k i +
            pMid * specTrinAux e exf adj up pUp pMid pDown tstep rfr strike dv n k (i + 1) +
            pUp * specTrinAux e exf adj up pUp pMid pDown tstep rfr strike dv n k (i + 2))
          tstep rfr)
        (exf (adj * up ^ ((i : ℤ) - ((n - (k + 1) : ℕ) : ℤ)) + dv (n - (k + 1)))
          strike)) 0

/-- Invariant of the trinomial backward sweep, exactly parallel to `BinInv`
but over the square layout (`2t+1` nodes at step `t`, offsets `t^2 + i`). -/
def TrinInv (e : ℚ → ℚ) (exf : ℚ → ℚ → ℚ)
    (adj up pUp pMid pDown tstep rfr strike expi : ℚ) (divs : List (ℤ × ℚ))
    (n k : ℕ) (st : BState) : Prop :=
  st.tree.length = (n + 1) ^ 2 ∧
  (st.day, st.curDiv, st.lastDiv) = escrowIter e tstep rfr divs expi (n + 1 - k) ∧
  ∀ t, k ≤ t → t ≤ n → ∀ i, i ≤ 2 * t →
    st.tree.getD (t ^ 2 + i) 0 =
      specTrinAux e exf adj up pUp pMid pDown tstep rfr strike
        (fun u => (escrowIter e tstep rfr divs expi (n - u)).2.1) n (n - t) i

/-- Processing trinomial step `k` preserves the sweep invariant. -/
theorem trinStep_inv (e : ℚ → ℚ) (exf : ℚ → ℚ → ℚ)
    (adj up pUp pMid pDown tstep rfr strike expi : ℚ) (divs : List (ℤ × ℚ))
    (n k : ℕ) (hk : k ≤ n) (st : BState)
    (h : TrinInv e exf adj up pUp pMid pDown tstep rfr strike expi divs n (k + 1) st) :
    TrinInv e exf adj up pUp pMid pDown tstep rfr strike expi divs n k
      (trinStep e exf adj up pUp pMid pDown tstep rfr strike divs n k st) := by
  obtain ⟨hlen, hesc, hnodes⟩ := h
  have hidx : n + 1 - (k + 1) = n - k := by omega
  rw [hidx] at hesc
  have htree : (trinStep e exf adj up pUp pMid pDown tstep rfr strike divs n k st).tree =
      (List.range (2 * k + 1)).foldl
        (fun t i =>
          t.set (k ^ 2 + i)
            (trinNodeVal e exf adj up pUp pMid pDown tstep rfr strike st.curDiv n k i t))
        st.tree := rfl
  have hstep : ((trinStep e exf adj up pUp pMid pDown tstep rfr strike divs n k st).day,
      (trinStep e exf adj up pUp pMid pDown tstep rfr strike divs n k st).curDiv,
      (trinStep e exf adj up pUp pMid pDown tstep rfr strike divs n k st).lastDiv) =
      escrowStepFn e tstep rfr divs (st.day, st.curDiv, st.lastDiv) := rfl
  have hcur : st.curDiv = (escrowIter e tstep rfr divs expi (n - k)).2.1 := by
    have := congrArg (fun p => p.2.1) hesc
    simpa using this
  refine ⟨?_, ?_, ?_⟩
  · rw [htree, writeFold_length]
    exact hlen
  · rw [hstep, hesc]
    have h1 : n + 1 - k = (n - k) + 1 := by omega
    rw [h1, escrowIter, escrowIter, Function.iterate_succ_apply']
  · intro t ht1 ht2 i hi
    rcases Nat.lt_or_ge k t with hkt | hkt
    · rw [htree]
      have hfrozen :
          ((List.range (2 * k + 1)).foldl
            (fun t2 i2 =>
              t2.set (k ^ 2 + i2)
                (trinNodeVal e exf adj up pUp pMid pDown tstep rfr strike st.curDiv n k i2 t2))
            st.tree).getD (t ^ 2 + i) 0 = st.tree.getD (t ^ 2 + i) 0 := by
        refine writeFold_frozen _ _ _ (2 * k + 1) st.tree (fun i2 hi2 => ?_)
        have hb1 : k ^ 2 + i2 < (k + 1) ^ 2 := by
          rw [sqNum_succ]; omega
        have hb2 : (k + 1) ^ 2 ≤ t ^ 2 := sqNum_mono hkt
        omega
      rw [hfrozen]
      exact hnodes t (by omega) ht2 i hi
    · have htk : t = k := by omega
      subst htk
      rw [htree]
      have hwrite :
          ((List.range (2 * t + 1)).foldl
            (fun t2 i2 =>
              t2.set (t ^ 2 + i2)
                (trinNodeVal e exf adj up pUp pMid pDown tstep rfr strike st.curDiv n t i2 t2))
            st.tree).getD (t ^ 2 + i) 0 =
            trinNodeVal e exf adj up pUp pMid pDown tstep rfr strike st.curDiv n t i st.tree := by
        refine writeFold_write _ _ ((t + 1) ^ 2) (2 * t + 1) st.tree i (by omega)
          (fun i2 hi2 => by rw [sqNum_succ]; omega)
          (fun a b _ _ hab => by omega)
          ?_ ?_
        · rw [hlen]
          have hb1 : t ^ 2 + i < (t + 1) ^ 2 := by
            rw [sqNum_succ]; omega
          have hb2 : (t + 1) ^ 2 ≤ (n + 1) ^ 2 := sqNum_mono (by omega)
          omega
        · intro t2 ht2eq
          by_cases hcont : t < n
          · simp only [trinNodeVal, if_pos hcont]
            rw [ht2eq ((t + 1) ^ 2 + i) (by omega),
              ht2eq ((t + 1) ^ 2 + i + 1) (by omega),
              ht2eq ((t + 1) ^ 2 + i + 2) (by omega)]
          · simp only [trinNodeVal, if_neg hcont]
      rw [hwrite, hcur]
      by_cases hcont : t < n
      · have hread1 := hnodes (t + 1) (le_refl _) (by omega) i (by omega)
        have hread2 := hnodes (t + 1) (le_refl _) (by omega) (i + 1) (by omega)
        have hread3 := hnodes (t + 1) (le_refl _) (by omega) (i + 2) (by omega)
        have hnt : n - t = (n - (t + 1)) + 1 := by omega
        simp only [trinNodeVal, if_pos hcont]
        rw [add_assoc ((t + 1) ^ 2) i 1, add_assoc ((t + 1) ^ 2) i 2,
          hread1, hread2, hread3, hnt]
        simp only [specTrinAux]
        have hback : n - (n - (t + 1) + 1) = t := by omega
        rw [hback, ← hnt]
      · have htn : t = n := by omega
        subst htn
        have hnt : t - t = 0 := by omega
        simp only [trinNodeVal, if_neg hcont, hnt, specTrinAux]

/-- Running the remaining trinomial iterations carries the invariant down. -/
theorem trinLoop_inv (e : ℚ → ℚ) (exf : ℚ → ℚ → ℚ)
    (adj up pUp pMid pDown tstep rfr strike expi : ℚ) (divs : List (ℤ × ℚ)) (n : ℕ) :
    ∀ k st, k ≤ n + 1 →
      TrinInv e exf adj up pUp pMid pDown tstep rfr strike expi divs n k st →
      TrinInv e exf adj up pUp pMid pDown tstep rfr strike expi divs n 0
        (trinLoop e exf adj up pUp pMid pDown tstep rfr strike divs n k st) := by
  intro k
  induction k with
  | zero => intro st _ h; exact h
  | succ k ih =>
    intro st hk h
    exact ih _ (by omega) (trinStep_inv e exf adj up pUp pMid pDown tstep rfr strike
      expi divs n k (by omega) st h)

/-- The trinomial sweep stores the specification's node value at every square
offset `s^2 + i`. -/
theorem trinSweep_spec (e : ℚ → ℚ) (exf : ℚ → ℚ → ℚ)
    (adj up pUp pMid pDown tstep rfr strike expi : ℚ) (divs : List (ℤ × ℚ))
    (n s i : ℕ) (hs : s ≤ n) (hi : i ≤ 2 * s) :
    (trinSweep e exf adj up pUp pMid pDown tstep rfr strike expi divs n).getD
        (s ^ 2 + i) 0 =
      specTrinAux e exf adj up pUp pMid pDown tstep rfr strike
        (fun u => (escrowIter e tstep rfr divs expi (n - u)).2.1) n (n - s) i := by
  have hinit : TrinInv e exf adj up pUp pMid pDown tstep rfr strike expi divs n (n + 1)
      ⟨List.replicate ((n + 1) ^ 2) 0, expi, 0, (divs.length : ℤ) - 1⟩ := by
    refine ⟨by simp, ?_, ?_⟩
    · have h0 : n + 1 - (n + 1) = 0 := by omega
      rw [h0, escrowIter, Function.iterate_zero_apply]
    · intro t ht1 ht2
      omega
  have hfinal := trinLoop_inv e exf adj up pUp pMid pDown tstep rfr strike expi divs n
    (n + 1) _ (le_refl _) hinit
  exact hfinal.2.2 s (by omega) hs i hi

/-- The specification's trinomial node value (claim C2) with parameters and
escrow sequence taken from the contract, at step `s`, node `i`. -/
def specTrinValue (e sq : ℚ → ℚ) (exf : ℚ → ℚ → ℚ) (c : OptionData) (s i : ℕ) : ℚ :=
  specTrinAux e exf (c.price - startDivVal e c)
    (tri_high_mult e sq c.vola c.tstep) (tri_high_p e sq c.rfr c.vola c.tstep)
    (1 - tri_high_p e sq c.rfr c.vola c.tstep - tri_low_p e sq c.rfr c.vola c.tstep)
    (tri_low_p e sq c.rfr c.vola c.tstep) c.tstep c.rfr c.strike
    (fun u => (escrowIter e c.tstep c.rfr c.divs ((c.expi : ℤ) : ℚ)
      (c.periods.toNat - u)).2.1)
    c.periods.toNat (c.periods.toNat - s) i

/-- C2: for every contract whose payoff resolves and whose periodCount is
positive, the trinomial pricer succeeds and, for every step `s ≤ periodCount`
and node `i ≤ 2s`, the lattice value at flat offset `s^2 + i` equals
`max(continuationVal, exerciseVal, 0)` of the specification's trinomial
recurrence (price `adjustedStartPrice * up^(i-s) + currentDividendValue`,
three-child discounted average for the continuation). -/
theorem trinomial_sweep_node_values (e sq : ℚ → ℚ) (exf : ℚ → ℚ → ℚ)
    (c : OptionData) (hex : exerciseFor c.type = some exf) (hp : 0 < c.periods)
    (s i : ℕ) (hs : s ≤ c.periods.toNat) (hi : i ≤ 2 * s) :
    TrinOption.pricetree e sq c = Except.ok (trinResult e sq exf c) ∧
    (trinResult e sq exf c).getD (s ^ 2 + i) 0 =
      specTrinValue e sq exf c s i := by
  constructor
  · rw [TrinOption.pricetree, if_neg (by omega : ¬ c.periods < 0), hex]
  · simp only [trinResult, specTrinValue, trinSweep]
    exact trinSweep_spec e exf (c.price - startDivVal e c)
      (tri_high_mult e sq c.vola c.tstep) (tri_high_p e sq c.rfr c.vola c.tstep)
      (1 - tri_high_p e sq c.rfr c.vola c.tstep - tri_low_p e sq c.rfr c.vola c.tstep)
      (tri_low_p e sq c.rfr c.vola c.tstep) c.tstep c.rfr c.strike
      ((c.expi : ℤ) : ℚ) c.divs c.periods.toNat s i hs hi

/-- Witness for C2 at the concrete contract `cCall`, step 1, node 2. -/
theorem trinomial_sweep_node_values_witness :
    TrinOption.pricetree id id cCall = Except.ok (trinResult id id exercise_call cCall) ∧
    (trinResult id id exercise_call cCall).getD (1 ^ 2 + 2) 0 =
      specTrinValue id id exercise_call cCall 1 2 :=
  trinomial_sweep_node_values id id exercise_call cCall rfl (by decide) 1 2
    (by decide) (by decide)

/-! ## Nonnegativity of every lattice entry (claim C3) -/

/-- The outer binomial loop never changes the buffer length. -/
theorem binLoop_length (e : ℚ → ℚ) (exf : ℚ → ℚ → ℚ)
    (adj up pUp pDown tstep rfr strike : ℚ) (divs : List (ℤ × ℚ)) (nper : ℕ) :
    ∀ k st, (binLoop e exf adj up pUp pDown tstep rfr strike divs nper k st).tree.length =
      st.tree.length := by
  intro k
  induction k with
  | zero => intro st; rfl
  | succ k ih =>
    intro st
    rw [binLoop, ih]
    exact writeFold_length _ _ (k + 1) st.tree

/-- The outer trinomial loop never changes the buffer length. -/
theorem trinLoop_length (e : ℚ → ℚ) (exf : ℚ → ℚ → ℚ)
    (adj up pUp pMid pDown tstep rfr strike : ℚ) (divs : List (ℤ × ℚ)) (nper : ℕ) :
    ∀ k st, (trinLoop e exf adj up pUp pMid pDown tstep rfr strike divs nper k st).tree.length =
      st.tree.length := by
  intro k
  induction k with
  | zero => intro st; rfl
  | succ k ih =>
    intro st
    rw [trinLoop, ih]
    exact writeFold_length _ _ (2 * k + 1) st.tree

/-- Every value the binomial loop writes is a `max(..., 0)`, so
nonnegativity of all buffer entries is invariant. -/
theorem binLoop_nonneg (e : ℚ → ℚ) (exf : ℚ → ℚ → ℚ)
    (adj up pUp pDown tstep rfr strike : ℚ) (divs : List (ℤ × ℚ)) (nper : ℕ) :
    ∀ k st, (∀ x ∈ st.tree, 0 ≤ x) →
      ∀ x ∈ (binLoop e exf adj up pUp pDown tstep rfr strike divs nper k st).tree, 0 ≤ x := by
  intro k
  induction k with
  | zero => intro st h; exact h
  | succ k ih =>
    intro st h
    rw [binLoop]
    refine ih _ ?_
    exact writeFold_nonneg _ _ (fun t i => le_max_right _ _) (k + 1) st.tree h

/-- Every value the trinomial loop writes is a `max(..., 0)`, so
nonnegativity of all buffer entries is invariant. -/
theorem trinLoop_nonneg (e : ℚ → ℚ) (exf : ℚ → ℚ → ℚ)
    (adj up pUp pMid pDown tstep rfr strike : ℚ) (divs : List (ℤ × ℚ)) (nper : ℕ) :
    ∀ k st, (∀ x ∈ st.tree, 0 ≤ x) →
      ∀ x ∈ (trinLoop e exf adj up pUp pMid pDown tstep rfr strike divs nper k st).tree, 0 ≤ x := by
  intro k
  induction k with
  | zero => intro st h; exact h
  | succ k ih =>
    intro st h
    rw [trinLoop]
    refine ih _ ?_
    exact writeFold_nonneg _ _ (fun t i => le_max_right _ _) (2 * k + 1) st.tree h

/-- C3: for every valid contract (contractType in {call, put}, positive
periodCount, valuation date before expiry) both pricers return successfully
and the returned value is `≥ 0`. -/
theorem pricer_value_nonneg (e sq : ℚ → ℚ) (c : OptionData)
    (hty : c.type = "call" ∨ c.type = "put") (hp : 0 < c.periods)
    (hdates : c.today < c.expi) :
    (∃ v, BinOption.value e sq c = Except.ok v ∧ 0 ≤ v) ∧
    (∃ v, TrinOption.value e sq c = Except.ok v ∧ 0 ≤ v) := by
  obtain ⟨exf, hex⟩ : ∃ exf, exerciseFor c.type = some exf := by
    rcases hty with h | h
    · exact ⟨exercise_call, by rw [h]; rfl⟩
    · exact ⟨exercise_put, by rw [h]; rfl⟩
  constructor
  · have hok : BinOption.pricetree e sq c = Except.ok (binResult e sq exf c) := by
      rw [BinOption.pricetree, if_neg (by omega : ¬ c.periods < 0), hex]
    have hlen : (binResult e sq exf c).length =
        (c.periods.toNat + 1) * (c.periods.toNat + 2) / 2 := by
      simp only [binResult, binSweep]
      rw [binLoop_length]
      simp
    have hnonneg : ∀ x ∈ binResult e sq exf c, 0 ≤ x := by
      simp only [binResult, binSweep]
      refine binLoop_nonneg _ _ _ _ _ _ _ _ _ _ _ _ _ (fun x hx => ?_)
      have := List.eq_of_mem_replicate hx
      simp [this]
    cases hres : binResult e sq exf c with
    | nil =>
      exfalso
      rw [hres] at hlen
      have hpos : 0 < (c.periods.toNat + 1) * (c.periods.toNat + 2) / 2 := by
        have h2 : 2 ≤ (c.periods.toNat + 1) * (c.periods.toNat + 2) := by nlinarith
        omega
      simp at hlen
      omega
    | cons x xs =>
      refine ⟨x, ?_, ?_⟩
      · rw [BinOption.value, hok, hres]
      · exact hnonneg x (by rw [hres]; exact List.mem_cons_self x xs)
  · have hok : TrinOption.pricetree e sq c = Except.ok (trinResult e sq exf c) := by
      rw [TrinOption.pricetree, if_neg (by omega : ¬ c.periods < 0), hex]
    have hlen : (trinResult e sq exf c).length = (c.periods.toNat + 1) ^ 2 := by
      simp only [trinResult, trinSweep]
      rw [trinLoop_length]
      simp
    have hnonneg : ∀ x ∈ trinResult e sq exf c, 0 ≤ x := by
      simp only [trinResult, trinSweep]
      refine trinLoop_nonneg _ _ _ _ _ _ _ _ _ _ _ _ _ _ (fun x hx => ?_)
      have := List.eq_of_mem_replicate hx
      simp [this]
    cases hres : trinResult e sq exf c with
    | nil =>
      exfalso
      rw [hres] at hlen
      have hpos : 0 < (c.periods.toNat + 1) ^ 2 := by positivity
      simp at hlen
      omega
    | cons x xs =>
      refine ⟨x, ?_, ?_⟩
      · rw [TrinOption.value, hok, hres]
      · exact hnonneg x (by rw [hres]; exact List.mem_cons_self x xs)

/-- Witness for C3 at the concrete contract `cCall`. -/
theorem pricer_value_nonneg_witness :
    (∃ v, BinOption.value id id cCall = Except.ok v ∧ 0 ≤ v) ∧
    (∃ v, TrinOption.value id id cCall = Except.ok v ∧ 0 ≤ v) :=
  pricer_value_nonneg id id cCall (Or.inl rfl) (by decide) (by decide)

/-! ## The dividend escrow (claim C4) -/

/-- Modelled from the spec (section 4.4): `initialDividendPV` is the sum over
all retained dividends of `discount(cashAmount, daysFromValuationToDividend,
riskFreeRate)`. -/
def specInitialDividendPV (e : ℚ → ℚ) (c : OptionData) : ℚ :=
  (c.divs.map fun d => discount e d.2 ((d.1 - c.today : ℤ) : ℚ) c.rfr).sum

/-- A running-sum `foldl` computes the sum of the mapped list. -/
theorem foldl_add_map_sum (f : ℤ × ℚ → ℚ) :
    ∀ (l : List (ℤ × ℚ)) (a : ℚ),
      l.foldl (fun acc d => acc + f d) a = a + (l.map f).sum := by
  intro l
  induction l with
  | nil => intro a; simp
  | cons d ds ih => intro a; simp [ih, add_assoc]

/-- Modelled from the spec (section 4.4), with the cursor represented as the
list of not-yet-absorbed dividends (a prefix of the ascending dividend list,
whose last element is the cursor's dividend): decrement the current date by
`tstep`; if the cursor's dividend date is strictly after the new date, absorb
its cash amount and drop it; then discount `currentDividendValue` one step. -/
def specEscrowStep (e : ℚ → ℚ) (tstep rfr : ℚ) :
    ℚ × ℚ × List (ℤ × ℚ) → ℚ × ℚ × List (ℤ × ℚ) :=
  fun st =>
    let day2 := st.1 - tstep
    match st.2.2.getLast? with
    | some d =>
        if (d.1 : ℚ) > day2 then
          (day2, discount e (st.2.1 + d.2) tstep rfr, st.2.2.dropLast)
        else (day2, discount e st.2.1 tstep rfr, st.2.2)
    | none => (day2, discount e st.2.1 tstep rfr, st.2.2)

/-- The specification's escrow state after `m` steps, starting from
`(expiry, 0, all retained dividends)`. -/
def specEscrowIter (e : ℚ → ℚ) (tstep rfr : ℚ) (divs : List (ℤ × ℚ))
    (expi : ℚ) (m : ℕ) : ℚ × ℚ × List (ℤ × ℚ) :=
  (specEscrowStep e tstep rfr)^[m] (expi, 0, divs)

/-- The escrow cursor either stays put or moves back exactly one position. -/
theorem escrowUpd_cursor (e : ℚ → ℚ) (tstep rfr : ℚ) (divs : List (ℤ × ℚ))
    (day cdv : ℚ) (ld : ℤ) :
    (escrowUpd e tstep rfr divs day cdv ld).2.2 = ld ∨
    (escrowUpd e tstep rfr divs day cdv ld).2.2 = ld - 1 := by
  simp only [escrowUpd]
  by_cases hc : 0 ≤ ld ∧ ((divAt divs ld).1 : ℚ) > day - tstep
  · right; simp [hc]
  · left; simp [hc]

/-- One code escrow update simulates one spec escrow update, where the spec's
pending list is the prefix of `divs` up to the code's cursor. -/
theorem escrow_sim_step (e : ℚ → ℚ) (tstep rfr : ℚ) (divs : List (ℤ × ℚ))
    (day cdv : ℚ) (ld : ℤ) (hub : ld < (divs.length : ℤ)) :
    specEscrowStep e tstep rfr (day, cdv, divs.take (ld + 1).toNat) =
      ((escrowUpd e tstep rfr divs day cdv ld).1,
        (escrowUpd e tstep rfr divs day cdv ld).2.1,
        divs.take ((escrowUpd e tstep rfr divs day cdv ld).2.2 + 1).toNat) ∧
    (escrowUpd e tstep rfr divs day cdv ld).2.2 ≤ ld := by
  rcases Int.lt_or_le ld 0 with hneg | hpos
  · have htake : (ld + 1).toNat = 0 := by omega
    have hcond : ¬(0 ≤ ld ∧ ((divAt divs ld).1 : ℚ) > day - tstep) :=
      fun hc => absurd hc.1 (by omega)
    constructor
    · simp only [escrowUpd, if_neg hcond, specEscrowStep, htake, List.take_zero]
      rfl
    · rcases escrowUpd_cursor e tstep rfr divs day cdv ld with h | h <;> omega
  · have hk : ld.toNat < divs.length := by omega
    have htake : (ld + 1).toNat = ld.toNat + 1 := by omega
    have hsplit : divs.take (ld.toNat + 1) = divs.take ld.toNat ++ [divs[ld.toNat]] := by
      rw [List.take_succ, List.getElem?_eq_getElem hk]
      rfl
    have hdivAt : divAt divs ld = divs[ld.toNat] := by
      rw [divAt, List.getD_eq_getElem _ _ hk]
    by_cases hgt : ((divs[ld.toNat].1 : ℤ) : ℚ) > day - tstep
    · have hcond : 0 ≤ ld ∧ ((divAt divs ld).1 : ℚ) > day - tstep := by
        rw [hdivAt]; exact ⟨hpos, hgt⟩
      constructor
      · simp only [escrowUpd, if_pos hcond, specEscrowStep, htake, hsplit,
          List.getLast?_concat, List.dropLast_concat]
        have hback : (ld - 1 + 1).toNat = ld.toNat := by omega
        simp only [hdivAt, if_pos hgt, hback]
      · rcases escrowUpd_cursor e tstep rfr divs day cdv ld with h | h <;> omega
    · have hcond : ¬(0 ≤ ld ∧ ((divAt divs ld).1 : ℚ) > day - tstep) := by
        rw [hdivAt]; exact fun hc => hgt hc.2
      constructor
      · simp only [escrowUpd, if_neg hcond, specEscrowStep, htake, hsplit,
          List.getLast?_concat, if_neg hgt]
      · rcases escrowUpd_cursor e tstep rfr divs day cdv ld with h | h <;> omega

/-- The code's escrow iterates simulate the specification's escrow iterates:
same date, same `currentDividendValue`, and the spec's pending list is the
prefix of the dividend list up to the code's cursor (which always stays below
the list length). -/
theorem escrow_sim (e : ℚ → ℚ) (tstep rfr : ℚ) (divs : List (ℤ × ℚ)) (expi : ℚ) :
    ∀ m, specEscrowIter e tstep rfr divs expi m =
        ((escrowIter e tstep rfr divs expi m).1,
          (escrowIter e tstep rfr divs expi m).2.1,
          divs.take ((escrowIter e tstep rfr divs expi m).2.2 + 1).toNat) ∧
      (escrowIter e tstep rfr divs expi m).2.2 < (divs.length : ℤ) := by
  intro m
  induction m with
  | zero =>
    constructor
    · have htake : ((divs.length : ℤ) - 1 + 1).toNat = divs.length := by omega
      rw [specEscrowIter, Function.iterate_zero_apply, escrowIter,
        Function.iterate_zero_apply]
      simp only [htake, List.take_length]
    · rw [escrowIter, Function.iterate_zero_apply]
      show (divs.length : ℤ) - 1 < (divs.length : ℤ)
      omega
  | succ m ih =>
    obtain ⟨ihEq, ihLt⟩ := ih
    have hstep := escrow_sim_step e tstep rfr divs
      (escrowIter e tstep rfr divs expi m).1
      (escrowIter e tstep rfr divs expi m).2.1
      (escrowIter e tstep rfr divs expi m).2.2 ihLt
    have hcode : escrowIter e tstep rfr divs expi (m + 1) =
        escrowUpd e tstep rfr divs (escrowIter e tstep rfr divs expi m).1
          (escrowIter e tstep rfr divs expi m).2.1
          (escrowIter e tstep rfr divs expi m).2.2 := by
      rw [escrowIter, Function.iterate_succ_apply']
      rfl
    constructor
    · rw [specEscrowIter, Function.iterate_succ_apply', ← specEscrowIter, ihEq,
        hcode]
      exact hstep.1
    · rw [hcode]
      omega

/-- Each iteration of the binomial outer loop applies exactly one escrow
update to the `(day, cur_div_val, last_div)` components of the state. -/
theorem binLoop_escrow (e : ℚ → ℚ) (exf : ℚ → ℚ → ℚ)
    (adj up pUp pDown tstep rfr strike : ℚ) (divs : List (ℤ × ℚ)) (nper : ℕ) :
    ∀ k st, ((binLoop e exf adj up pUp pDown tstep rfr strike divs nper k st).day,
        (binLoop e exf adj up pUp pDown tstep rfr strike divs nper k st).curDiv,
        (binLoop e exf adj up pUp pDown tstep rfr strike divs nper k st).lastDiv) =
      (escrowStepFn e tstep rfr divs)^[k] (st.day, st.curDiv, st.lastDiv) := by
  intro k
  induction k with
  | zero => intro st; rfl
  | succ k ih =>
    intro st
    rw [binLoop, ih, Function.iterate_succ_apply]
    rfl

/-- C4: the dividend escrow is maintained exactly as specified:
`initialDividendPV` is the sum of the discounted retained dividends, the
sweep runs on `adjustedStartPrice = spotPrice - initialDividendPV`, the
code's per-step escrow sequence coincides with the specification's
(date decremented by `tstep`; the cursor's dividend absorbed exactly when its
date is strictly after the new date; then one step of discounting), and every
outer-loop iteration applies exactly one such escrow update after processing
its nodes. -/
theorem dividend_escrow_spec (e sq : ℚ → ℚ) (exf : ℚ → ℚ → ℚ) (c : OptionData)
    (hex : exerciseFor c.type = some exf) (hp : 0 < c.periods) :
    startDivVal e c = specInitialDividendPV e c ∧
    BinOption.pricetree e sq c =
      Except.ok (binSweep e exf (c.price - specInitialDividendPV e c)
        (high_mult e sq c.vola c.tstep) (high_p e sq c.rfr c.vola c.tstep)
        (1 - high_p e sq c.rfr c.vola c.tstep) c.tstep c.rfr c.strike
        ((c.expi : ℤ) : ℚ) c.divs c.periods.toNat) ∧
    (∀ m, specEscrowIter e c.tstep c.rfr c.divs ((c.expi : ℤ) : ℚ) m =
        ((escrowIter e c.tstep c.rfr c.divs ((c.expi : ℤ) : ℚ) m).1,
          (escrowIter e c.tstep c.rfr c.divs ((c.expi : ℤ) : ℚ) m).2.1,
          c.divs.take
            ((escrowIter e c.tstep c.rfr c.divs ((c.expi : ℤ) : ℚ) m).2.2 + 1).toNat)) ∧
    (∀ k st,
      ((binLoop e exf (c.price - specInitialDividendPV e c)
          (high_mult e sq c.vola c.tstep) (high_p e sq c.rfr c.vola c.tstep)
          (1 - high_p e sq c.rfr c.vola c.tstep) c.tstep c.rfr c.strike
          c.divs c.periods.toNat k st).day,
        (binLoop e exf (c.price - specInitialDividendPV e c)
          (high_mult e sq c.vola c.tstep) (high_p e sq c.rfr c.vola c.tstep)
          (1 - high_p e sq c.rfr c.vola c.tstep) c.tstep c.rfr c.strike
          c.divs c.periods.toNat k st).curDiv,
        (binLoop e exf (c.price - specInitialDividendPV e c)
          (high_mult e sq c.vola c.tstep) (high_p e sq c.rfr c.vola c.tstep)
          (1 - high_p e sq c.rfr c.vola c.tstep) c.tstep c.rfr c.strike
          c.divs c.periods.toNat k st).lastDiv) =
      (escrowStepFn e c.tstep c.rfr c.divs)^[k] (st.day, st.curDiv, st.lastDiv)) := by
  have h1 : startDivVal e c = specInitialDividendPV e c := by
    rw [startDivVal, specInitialDividendPV]
    simpa using
      foldl_add_map_sum (fun d => discount e d.2 ((d.1 - c.today : ℤ) : ℚ) c.rfr)
        c.divs 0
  refine ⟨h1, ?_, fun m => (escrow_sim e c.tstep c.rfr c.divs ((c.expi : ℤ) : ℚ) m).1,
    fun k st => binLoop_escrow e exf _ _ _ _ c.tstep c.rfr c.strike c.divs
      c.periods.toNat k st⟩
  rw [BinOption.pricetree, if_neg (by omega : ¬ c.periods < 0), hex]
  simp only [binResult, h1]

/-- Witness for C4 at the concrete contract `cCall`. -/
theorem dividend_escrow_spec_witness :
    startDivVal id cCall = specInitialDividendPV id cCall ∧
    BinOption.pricetree id id cCall =
      Except.ok (binSweep id exercise_call (cCall.price - specInitialDividendPV id cCall)
        (high_mult id id cCall.vola cCall.tstep) (high_p id id cCall.rfr cCall.vola cCall.tstep)
        (1 - high_p id id cCall.rfr cCall.vola cCall.tstep) cCall.tstep cCall.rfr cCall.strike
        ((cCall.expi : ℤ) : ℚ) cCall.divs cCall.periods.toNat) ∧
    (∀ m, specEscrowIter id cCall.tstep cCall.rfr cCall.divs ((cCall.expi : ℤ) : ℚ) m =
        ((escrowIter id cCall.tstep cCall.rfr cCall.divs ((cCall.expi : ℤ) : ℚ) m).1,
          (escrowIter id cCall.tstep cCall.rfr cCall.divs ((cCall.expi : ℤ) : ℚ) m).2.1,
          cCall.divs.take
            ((escrowIter id cCall.tstep cCall.rfr cCall.divs ((cCall.expi : ℤ) : ℚ) m).2.2 + 1).toNat)) ∧
    (∀ k st,
      ((binLoop id exercise_call (cCall.price - specInitialDividendPV id cCall)
          (high_mult id id cCall.vola cCall.tstep) (high_p id id cCall.rfr cCall.vola cCall.tstep)
          (1 - high_p id id cCall.rfr cCall.vola cCall.tstep) cCall.tstep cCall.rfr cCall.strike
          cCall.divs cCall.periods.toNat k st).day,
        (binLoop id exercise_call (cCall.price - specInitialDividendPV id cCall)
          (high_mult id id cCall.vola cCall.tstep) (high_p id id cCall.rfr cCall.vola cCall.tstep)
          (1 - high_p id id cCall.rfr cCall.vola cCall.tstep) cCall.tstep cCall.rfr cCall.strike
          cCall.divs cCall.periods.toNat k st).curDiv,
        (binLoop id exercise_call (cCall.price - specInitialDividendPV id cCall)
          (high_mult id id cCall.vola cCall.tstep) (high_p id id cCall.rfr cCall.vola cCall.tstep)
          (1 - high_p id id cCall.rfr cCall.vola cCall.tstep) cCall.tstep cCall.rfr cCall.strike
          cCall.divs cCall.periods.toNat k st).lastDiv) =
      (escrowStepFn id cCall.tstep cCall.rfr cCall.divs)^[k] (st.day, st.curDiv, st.lastDiv)) :=
  dividend_escrow_spec id id exercise_call cCall rfl (by decide)

/-! ## Lattice parameters (claim C5) -/

/-- Modelled from the spec (section 4.3): `up = exp(volatility*sqrt(tstep/365))`. -/
def specBinUp (e sq : ℚ → ℚ) (vola tstep : ℚ) : ℚ := e (vola * sq (tstep / 365))

/-- Modelled from the spec (section 4.3):
`pUp = (exp(riskFreeRate*tstep/365) - down) / (up - down)` with `down = 1/up`. -/
def specBinPUp (e sq : ℚ → ℚ) (rfr vola tstep : ℚ) : ℚ :=
  (e (rfr * tstep / 365) - 1 / specBinUp e sq vola tstep) /
    (specBinUp e sq vola tstep - 1 / specBinUp e sq vola tstep)

/-- Modelled from the spec (section 4.3): `up = exp(volatility*sqrt(2*tstep/365))`. -/
def specTriUp (e sq : ℚ → ℚ) (vola tstep : ℚ) : ℚ := e (vola * sq (2 * tstep / 365))

/-- Modelled from the spec (section 4.3), with `c = volatility*sqrt(tstep/365/2)`:
`pUp = ((exp(riskFreeRate*tstep/365/2) - exp(-c)) / (exp(c)-exp(-c)))^2`. -/
def specTriPUp (e sq : ℚ → ℚ) (rfr vola tstep : ℚ) : ℚ :=
  ((e (rfr * tstep / 365 / 2) - e (-(vola * sq (tstep / 365 / 2)))) /
    (e (vola * sq (tstep / 365 / 2)) - e (-(vola * sq (tstep / 365 / 2))))) ^ 2

/-- Modelled from the spec (section 4.3):
`pDown = ((exp(c) - exp(riskFreeRate*tstep/365/2)) / (exp(c)-exp(-c)))^2`. -/
def specTriPDown (e sq : ℚ → ℚ) (rfr vola tstep : ℚ) : ℚ :=
  ((e (vola * sq (tstep / 365 / 2)) - e (rfr * tstep / 365 / 2)) /
    (e (vola * sq (tstep / 365 / 2)) - e (-(vola * sq (tstep / 365 / 2))))) ^ 2

/-- C5: the source's lattice-parameter helpers equal the specification's
formulas exactly, and both pricers invoke their sweeps with
`pDown = 1 - pUp` (binomial) and `pMid = 1 - pUp - pDown` (trinomial). -/
theorem lattice_parameters_match (e sq : ℚ → ℚ) (rfr vola tstep : ℚ)
    (exf : ℚ → ℚ → ℚ) (c : OptionData) (hex : exerciseFor c.type = some exf)
    (hp : 0 < c.periods) :
    high_mult e sq vola tstep = specBinUp e sq vola tstep ∧
    high_p e sq rfr vola tstep = specBinPUp e sq rfr vola tstep ∧
    tri_high_mult e sq vola tstep = specTriUp e sq vola tstep ∧
    tri_high_p e sq rfr vola tstep = specTriPUp e sq rfr vola tstep ∧
    tri_low_p e sq rfr vola tstep = specTriPDown e sq rfr vola tstep ∧
    BinOption.pricetree e sq c =
      Except.ok (binSweep e exf (c.price - startDivVal e c)
        (specBinUp e sq c.vola c.tstep) (specBinPUp e sq c.rfr c.vola c.tstep)
        (1 - specBinPUp e sq c.rfr c.vola c.tstep) c.tstep c.rfr c.strike
        ((c.expi : ℤ) : ℚ) c.divs c.periods.toNat) ∧
    TrinOption.pricetree e sq c =
      Except.ok (trinSweep e exf (c.price - startDivVal e c)
        (specTriUp e sq c.vola c.tstep) (specTriPUp e sq c.rfr c.vola c.tstep)
        (1 - specTriPUp e sq c.rfr c.vola c.tstep -
          specTriPDown e sq c.rfr c.vola c.tstep)
        (specTriPDown e sq c.rfr c.vola c.tstep) c.tstep c.rfr c.strike
        ((c.expi : ℤ) : ℚ) c.divs c.periods.toNat) := by
  refine ⟨rfl, rfl, rfl, rfl, rfl, ?_, ?_⟩
  · rw [BinOption.pricetree, if_neg (by omega : ¬ c.periods < 0), hex]
    rfl
  · rw [TrinOption.pricetree, if_neg (by omega : ¬ c.periods < 0), hex]
    rfl

/-- Witness for C5 at `cCall` and concrete parameter values. -/
theorem lattice_parameters_match_witness :
    high_mult id id (9 / 100) (2 / 5) = specBinUp id id (9 / 100) (2 / 5) ∧
    high_p id id 1 (9 / 100) (2 / 5) = specBinPUp id id 1 (9 / 100) (2 / 5) ∧
    tri_high_mult id id (9 / 100) (2 / 5) = specTriUp id id (9 / 100) (2 / 5) ∧
    tri_high_p id id 1 (9 / 100) (2 / 5) = specTriPUp id id 1 (9 / 100) (2 / 5) ∧
    tri_low_p id id 1 (9 / 100) (2 / 5) = specTriPDown id id 1 (9 / 100) (2 / 5) ∧
    BinOption.pricetree id id cCall =
      Except.ok (binSweep id exercise_call (cCall.price - startDivVal id cCall)
        (specBinUp id id cCall.vola cCall.tstep)
        (specBinPUp id id cCall.rfr cCall.vola cCall.tstep)
        (1 - specBinPUp id id cCall.rfr cCall.vola cCall.tstep)
        cCall.tstep cCall.rfr cCall.strike
        ((cCall.expi : ℤ) : ℚ) cCall.divs cCall.periods.toNat) ∧
    TrinOption.pricetree id id cCall =
      Except.ok (trinSweep id exercise_call (cCall.price - startDivVal id cCall)
        (specTriUp id id cCall.vola cCall.tstep)
        (specTriPUp id id cCall.rfr cCall.vola cCall.tstep)
        (1 - specTriPUp id id cCall.rfr cCall.vola cCall.tstep -
          specTriPDown id id cCall.rfr cCall.vola cCall.tstep)
        (specTriPDown id id cCall.rfr cCall.vola cCall.tstep)
        cCall.tstep cCall.rfr cCall.strike
        ((cCall.expi : ℤ) : ℚ) cCall.divs cCall.periods.toNat) :=
  lattice_parameters_match id id 1 (9 / 100) (2 / 5) exercise_call cCall rfl (by decide)

deriving instance DecidableEq for Except

/-! ## Error behaviour on invalid contract type (claim C6) -/

/-- A contract whose type is neither `call` nor `put`. -/
def cStraddle : OptionData :=
  { today := 0, type := "straddle", price := 50, strike := 50, vola := 2 / 5,
    expi := 120, rfr := 9 / 100, divs := [], periods := 3, tstep := 40 }

/-- The same invalid-type contract with a negative period count, for which the
sweep body never runs. -/
def cStraddleNeg : OptionData :=
  { today := 0, type := "straddle", price := 50, strike := 50, vola := 2 / 5,
    expi := 120, rfr := 9 / 100, divs := [], periods := -3, tstep := -40 }

/-- C6 counterexample: on an unrecognized contract type the pricers do NOT
fail with the spec's `InvalidContractType`; they hit the unbound local
`exercise` (an `UnboundLocalError`) inside the sweep, and when the sweep body
never executes (negative period count) no error is raised at all, so no check
happens at payoff-resolution time. -/
theorem invalid_type_counterexample :
    BinOption.pricetree id id cStraddle ≠ Except.error PyErr.invalidContractType ∧
    TrinOption.pricetree id id cStraddle ≠ Except.error PyErr.invalidContractType ∧
    BinOption.pricetree id id cStraddleNeg = Except.ok [0] := by
  refine ⟨?_, ?_, ?_⟩ <;> decide

/-- C6 amended: for every contract whose type is neither `call` nor `put` and
whose period count is nonnegative, invoking either pricer fails with an
`UnboundLocalError`, raised when the never-assigned payoff local is first
applied inside the sweep; there is no default payoff. -/
theorem invalid_type_unbound_payoff (e sq : ℚ → ℚ) (c : OptionData)
    (h1 : c.type ≠ "call") (h2 : c.type ≠ "put") (h3 : 0 ≤ c.periods) :
    BinOption.pricetree e sq c = Except.error PyErr.unboundLocal ∧
    TrinOption.pricetree e sq c = Except.error PyErr.unboundLocal := by
  have hex : exerciseFor c.type = none := by
    rw [exerciseFor, if_neg h1, if_neg h2]
  constructor
  · rw [BinOption.pricetree, if_neg (by omega : ¬ c.periods < 0), hex]
  · rw [TrinOption.pricetree, if_neg (by omega : ¬ c.periods < 0), hex]

/-- Witness for the amended C6 at the concrete contract `cStraddle`. -/
theorem invalid_type_unbound_payoff_witness :
    BinOption.pricetree id id cStraddle = Except.error PyErr.unboundLocal ∧
    TrinOption.pricetree id id cStraddle = Except.error PyErr.unboundLocal :=
  invalid_type_unbound_payoff id id cStraddle (by decide) (by decide) (by decide)

/-! ## Missing periodCount validation (claim C7) -/

/-- Constructor input with `periods = -1`. -/
def infoNegPeriods : OptionInfo :=
  { today := 0, type := "call", price := 50, strike := 50, vola := 2 / 5,
    expi := 100, rfr := 9 / 100, divs := none, periods := some (-1) }

/-- Constructor input with `periods = 0`. -/
def infoZeroPeriods : OptionInfo :=
  { today := 0, type := "call", price := 50, strike := 50, vola := 2 / 5,
    expi := 100, rfr := 9 / 100, divs := none, periods := some 0 }

/-- Constructor input with `periods = -3`. -/
def infoNegThreePeriods : OptionInfo :=
  { today := 0, type := "call", price := 50, strike := 50, vola := 2 / 5,
    expi := 100, rfr := 9 / 100, divs := none, periods := some (-3) }

/-- The contract `Option.__init__` happily builds from `infoNegPeriods`. -/
def cNegOne : OptionData :=
  { today := 0, type := "call", price := 50, strike := 50, vola := 2 / 5,
    expi := 100, rfr := 9 / 100, divs := [], periods := -1, tstep := -100 }

/-- The contract `Option.__init__` happily builds from `infoNegThreePeriods`. -/
def cNegThree : OptionData :=
  { today := 0, type := "call", price := 50, strike := 50, vola := 2 / 5,
    expi := 100, rfr := 9 / 100, divs := [], periods := -3, tstep := -(100 / 3) }

/-- C7 evidence: the constructor performs no periodCount validation.
`periods = -1` constructs successfully and only fails later, inside
`value()`, with an `IndexError`; `periods = -3` constructs successfully and
`value()` silently returns `0`; `periods = 0` does fail at construction, but
with the `ZeroDivisionError` of the time-step computation, not with any
dedicated `InvalidPeriodCount` error (which does not exist in the code). -/
theorem no_period_count_validation :
    OptionData.init infoNegPeriods = Except.ok cNegOne ∧
    BinOption.value id id cNegOne = Except.error PyErr.indexError ∧
    OptionData.init infoNegThreePeriods = Except.ok cNegThree ∧
    BinOption.value id id cNegThree = Except.ok 0 ∧
    OptionData.init infoZeroPeriods = Except.error PyErr.zeroDivision := by
  refine ⟨?_, by decide, ?_, by decide, by decide⟩
  · simp only [OptionData.init, infoNegPeriods, cNegOne]
    norm_num
  · simp only [OptionData.init, infoNegThreePeriods, cNegThree]
    norm_num

/-! ## Constructor dividend handling (claim C8) -/

/-- C8: after a successful construction the contract's dividend list is
sorted ascending by date and is a permutation of exactly those input
dividends dated strictly after the valuation date (dividends on or before it
are silently dropped; a missing `divs` key behaves as an empty list). -/
theorem constructor_divs_filtered_sorted (info : OptionInfo) (c : OptionData)
    (h : OptionData.init info = Except.ok c) :
    List.Sorted divLE c.divs ∧
    List.Perm c.divs ((info.divs.getD []).filter fun d => decide (info.today < d.1)) ∧
    ∀ d ∈ c.divs, info.today < d.1 := by
  simp only [OptionData.init] at h
  by_cases hp : (match info.periods with | some p => p | none => 3) = 0
  · rw [if_pos hp] at h
    simp at h
  · rw [if_neg hp] at h
    have hc := Except.ok.inj h
    subst hc
    cases hdi : info.divs with
    | none => simp [hdi]
    | some ds =>
      simp only [hdi, Option.getD_some]
      refine ⟨?_, ?_, ?_⟩
      · exact List.sorted_insertionSort divLE _
      · exact List.perm_insertionSort divLE _
      · intro d hd
        have hmem : d ∈ ds.filter (fun d => decide (info.today < d.1)) :=
          (List.perm_insertionSort divLE _).subset hd
        simpa using (List.mem_filter.mp hmem).2

/-- Constructor input with one dividend on or before the valuation date and
two later dividends given out of date order. -/
def infoDivs : OptionInfo :=
  { today := 10, type := "call", price := 50, strike := 50, vola := 1,
    expi := 40, rfr := 0, divs := some [(30, 1), (20, 2), (5, 7)], periods := some 3 }

/-- The contract the constructor builds from `infoDivs`: the early dividend
is dropped and the two retained ones are sorted ascending. -/
def cDivs : OptionData :=
  { today := 10, type := "call", price := 50, strike := 50, vola := 1,
    expi := 40, rfr := 0, divs := [(20, 2), (30, 1)], periods := 3, tstep := 10 }

/-- Witness for C8 at `infoDivs`. -/
theorem constructor_divs_filtered_sorted_witness :
    List.Sorted divLE cDivs.divs ∧
    List.Perm cDivs.divs
      ((infoDivs.divs.getD []).filter fun d => decide (infoDivs.today < d.1)) ∧
    ∀ d ∈ cDivs.divs, infoDivs.today < d.1 :=
  constructor_divs_filtered_sorted infoDivs cDivs (by
    simp [OptionData.init, infoDivs, cDivs, List.insertionSort, List.orderedInsert, divLE]
    norm_num)

/-! ## All lattice accesses are in bounds (claim C9) -/

/-- Every flat index the binomial sweep touches, per the loop structure of
lines 75-90: for each step `s` and node `i in 0..s`, the write at
`s(s+1)/2 + i`, and for `s < n` the two child reads at
`(s+1)(s+2)/2 + i` and `(s+1)(s+2)/2 + i + 1`. -/
def binAccesses (n : ℕ) : List ℕ :=
  (List.range (n + 1)).flatMap fun s =>
    (List.range (s + 1)).flatMap fun i =>
      (s * (s + 1) / 2 + i) ::
        (if s < n then
          [(s + 1) * (s + 2) / 2 + i, (s + 1) * (s + 2) / 2 + i + 1]
        else [])

/-- Every flat index the trinomial sweep touches, per lines 144-159: for each
step `s` and node `i in 0..2s`, the write at `s^2 + i`, and for `s < n` the
three child reads at `(s+1)^2 + i`, `(s+1)^2 + i + 1`, `(s+1)^2 + i + 2`. -/
def trinAccesses (n : ℕ) : List ℕ :=
  (List.range (n + 1)).flatMap fun s =>
    (List.range (2 * s + 1)).flatMap fun i =>
      (s ^ 2 + i) ::
        (if s < n then
          [(s + 1) ^ 2 + i, (s + 1) ^ 2 + i + 1, (s + 1) ^ 2 + i + 2]
        else [])

/-- C9: for positive `n`, the binomial buffer has `(n+1)(n+2)/2` entries and
the trinomial buffer `(n+1)^2` entries, and every index either sweep uses
(writes and child reads alike) is strictly below the respective length. -/
theorem lattice_accesses_in_bounds (e sq : ℚ → ℚ) (exf : ℚ → ℚ → ℚ)
    (adj up pUp pMid pDown tstep rfr strike expi : ℚ) (divs : List (ℤ × ℚ))
    (n : ℕ) (hn : 0 < n) (a b : ℕ)
    (ha : a ∈ binAccesses n) (hb : b ∈ trinAccesses n) :
    (binSweep e exf adj up pUp pDown tstep rfr strike expi divs n).length =
      (n + 1) * (n + 2) / 2 ∧
    a < (n + 1) * (n + 2) / 2 ∧
    (trinSweep e exf adj up pUp pMid pDown tstep rfr strike expi divs n).length =
      (n + 1) ^ 2 ∧
    b < (n + 1) ^ 2 := by
  refine ⟨?_, ?_, ?_, ?_⟩
  · rw [binSweep, binLoop_length]
    exact List.length_replicate _ _
  · simp only [binAccesses, List.mem_flatMap, List.mem_range] at ha
    obtain ⟨s, hs, i, hi, hmem⟩ := ha
    rcases List.mem_cons.mp hmem with rfl | hrest
    · have h1 := triNum_succ s
      have h2 : (s + 1) * (s + 2) / 2 ≤ (n + 1) * (n + 2) / 2 :=
        triNum_mono (show s + 1 ≤ n + 1 by omega)
      omega
    · by_cases hsn : s < n
      · rw [if_pos hsn] at hrest
        have h2 : (s + 2) * (s + 3) / 2 = (s + 1) * (s + 2) / 2 + (s + 2) :=
          triNum_succ (s + 1)
        have h3 : (s + 2) * (s + 3) / 2 ≤ (n + 1) * (n + 2) / 2 :=
          triNum_mono (show s + 2 ≤ n + 1 by omega)
        rcases List.mem_cons.mp hrest with rfl | hrest2
        · omega
        · rcases List.mem_cons.mp hrest2 with rfl | hrest3
          · omega
          · simp at hrest3
      · rw [if_neg hsn] at hrest
        simp at hrest
  · rw [trinSweep, trinLoop_length]
    exact List.length_replicate _ _
  · simp only [trinAccesses, List.mem_flatMap, List.mem_range] at hb
    obtain ⟨s, hs, i, hi, hmem⟩ := hb
    rcases List.mem_cons.mp hmem with rfl | hrest
    · have h1 := sqNum_succ s
      have h2 : (s + 1) ^ 2 ≤ (n + 1) ^ 2 := sqNum_mono (show s + 1 ≤ n + 1 by omega)
      omega
    · by_cases hsn : s < n
      · rw [if_pos hsn] at hrest
        have h2 : (s + 2) ^ 2 = (s + 1) ^ 2 + 2 * (s + 1) + 1 := sqNum_succ (s + 1)
        have h3 : (s + 2) ^ 2 ≤ (n + 1) ^ 2 := sqNum_mono (show s + 2 ≤ n + 1 by omega)
        rcases List.mem_cons.mp hrest with rfl | h4
        · omega
        · rcases List.mem_cons.mp h4 with rfl | h5
          · omega
          · rcases List.mem_cons.mp h5 with rfl | h6
            · omega
            · simp at h6
      · rw [if_neg hsn] at hrest
        simp at hrest

/-- Witness for C9 at `n = 1` with the deepest binomial access `2` and the
deepest trinomial access `3`. -/
theorem lattice_accesses_in_bounds_witness :
    (binSweep id exercise_call 1 1 1 1 1 1 1 1 [] 1).length = (1 + 1) * (1 + 2) / 2 ∧
    2 < (1 + 1) * (1 + 2) / 2 ∧
    (trinSweep id exercise_call 1 1 1 1 1 1 1 1 1 [] 1).length = (1 + 1) ^ 2 ∧
    3 < (1 + 1) ^ 2 :=
  lattice_accesses_in_bounds id id exercise_call 1 1 1 1 1 1 1 1 1 [] 1
    (by decide) 2 3 (by decide) (by decide)

/-! ## At most one dividend absorbed per step (claim C10) -/

/-- C10: one escrow update decrements the current date by `tstep` and then
either absorbs nothing (cursor unchanged, `cur_div_val` merely discounted) or
absorbs exactly the cursor's dividend (cursor moved back one single position),
even if several pending dividends are dated after the new date; a second due
dividend can only be absorbed by a later step's update. -/
theorem escrow_absorbs_at_most_one (e : ℚ → ℚ) (tstep rfr : ℚ)
    (divs : List (ℤ × ℚ)) (day cdv : ℚ) (ld : ℤ) :
    (escrowUpd e tstep rfr divs day cdv ld).1 = day - tstep ∧
    (((escrowUpd e tstep rfr divs day cdv ld).2.2 = ld ∧
        (escrowUpd e tstep rfr divs day cdv ld).2.1 = discount e cdv tstep rfr) ∨
      ((escrowUpd e tstep rfr divs day cdv ld).2.2 = ld - 1 ∧
        (escrowUpd e tstep rfr divs day cdv ld).2.1 =
          discount e (cdv + (divAt divs ld).2) tstep rfr)) := by
  refine ⟨rfl, ?_⟩
  by_cases hc : 0 ≤ ld ∧ ((divAt divs ld).1 : ℚ) > day - tstep
  · right
    constructor <;> simp [escrowUpd, hc]
  · left
    constructor <;> simp [escrowUpd, hc]
